import Mathlib

set_option maxRecDepth 10000

/-!
Verification of the toydb key-value store (physical layer `FileStorage`,
logical layer `Logical`).

A file is modelled as a list of byte values (`List Nat`); every external
operation of `FileStorage` seeks to an absolute position first, so each
operation is a pure function of the file contents.  Python exceptions
(`struct.error` on a short read or an oversized pack, `pickle` failures)
are modelled with `Option`/`Except`.  The scan loops of the source are
modelled with a fuel parameter chosen large enough that, whenever the
Python loop terminates, the fuel is not exhausted (positions advance
strictly on every iteration, and positions are bounded by the file
length).  Serialization of keys and values (`pickle` in the source) is
treated as an opaque injected pair of encode/decode functions, as the
specification states.
-/

namespace ToyDB

/-- Bytes returned by `File.read(n)` at position `p`: at most `n` bytes,
clipped at the end of the file (Python returns the available bytes
without error). -/
def readBytes (b : List Nat) (p n : Nat) : List Nat := (b.drop p).take n

/-- Effect of `File.write(s)` at position `p`: overwrites in place,
extends the file if needed, and fills a gap with zero bytes when `p`
is past the current end (POSIX sparse-write behaviour). -/
def writeAt (b : List Nat) (p : Nat) (s : List Nat) : List Nat :=
  b.take p ++ List.replicate (p - b.length) 0 ++ s ++ b.drop (p + s.length)

/-- Big-endian two-byte encoding of `n`, the `'!H'` format of the source
(`INTEGER_FORMAT`, `INTEGER_LENGTH = 2`). -/
def u16 (n : Nat) : List Nat := [n / 256, n % 256]

/-- Model of `struct.pack('!H', n)`: fails (raises `struct.error`)
unless `n < 2^16`. -/
def packU16 (n : Nat) : Option (List Nat) :=
  if n < 65536 then some (u16 n) else none

/-- Model of `FileStorage._read_integer` at position `p`: reads two
bytes and unpacks them big-endian; `struct.unpack` fails when fewer
than two bytes are available. -/
def read_integer (b : List Nat) (p : Nat) : Option Nat :=
  match readBytes b p 2 with
  | [hi, lo] => some (hi * 256 + lo)
  | _ => none

namespace FileStorage

/-- Model of `FileStorage._seek_formatted_data_end` starting at position
`p`: repeatedly read a length prefix and skip forward while it is
non-zero; returns the position of the first zero length prefix.  The
source's `while` loop advances the position by at least one byte per
iteration, so fuel `b.length + 1` (as used by `append`) is never
exhausted on inputs where the Python loop terminates. -/
def seek_formatted_data_end (b : List Nat) : Nat → Nat → Option Nat
  | 0, _ => none
  | fuel + 1, p =>
    match read_integer b p with
    | none => none
    | some l => if l = 0 then some p else seek_formatted_data_end b fuel (p + l)

/-- Model of `FileStorage.__init__` acting on the contents of an
existing file (a fresh file is the empty list): if the file is empty,
or its last byte is not zero, append `2 * 128` zero bytes at the end
(`_zero_end(128)`); otherwise leave the file untouched. -/
def init (b : List Nat) : List Nat :=
  if b.length = 0 then writeAt b b.length (List.replicate 256 0)
  else if readBytes b (b.length - 1) 1 = [0] then b
  else writeAt b b.length (List.replicate 256 0)

/-- Model of `FileStorage.append`: seek to the end of the formatted
data, write `<len(data)+2><data>` there (`_write_formatted`), then
write two zero bytes at the end of the file (`_zero_end()`).  The
result is the pair (returned address or `none` when an exception is
raised, resulting file contents); both failure modes — a short read
during the scan and `struct.pack` overflow — occur before any byte is
written, so the file is returned unchanged on failure. -/
def append (b : List Nat) (data : List Nat) : Option Nat × List Nat :=
  match seek_formatted_data_end b (b.length + 1) 0 with
  | none => (none, b)
  | some addr =>
    match packU16 (data.length + 2) with
    | none => (none, b)
    | some lenBytes =>
      let b1 := writeAt b addr (lenBytes ++ data)
      (some addr, writeAt b1 b1.length [0, 0])

/-- Model of `FileStorage.read`: read the length prefix at `address`;
a zero prefix yields Python `None` (modelled `some none`), otherwise
return `data_length - 2` payload bytes.  When the prefix is `1`,
Python computes `read(-1)` which reads to the end of the file.  The
outer `Option` is the exception monad (`struct.unpack` on a short
read). -/
def read (b : List Nat) (address : Nat) : Option (Option (List Nat)) :=
  match read_integer b address with
  | none => none
  | some dl =>
    if dl = 0 then some none
    else if dl < 2 then some (some (b.drop (address + 2)))
    else some (some (readBytes b (address + 2) (dl - 2)))

/-- Loop of `FileStorage.next_address`: `ra` is `read_address` (equal
to the stream position at every loop entry) and `len` the length read
on the previous iteration.  While `read_address <= address` and the
previous length was positive, read a length at `ra` and advance by it.
On exit, return `None` when `read_address == address` and
`read_address` otherwise. -/
def next_address_aux (b : List Nat) (address : Nat) : Nat → Nat → Nat → Option (Option Nat)
  | 0, _, _ => none
  | fuel + 1, ra, len =>
    if ra ≤ address ∧ 0 < len then
      match read_integer b ra with
      | none => none
      | some l => next_address_aux b address fuel (ra + l) l
    else some (if ra = address then none else some ra)

/-- Model of `FileStorage.next_address`.  The loop advances
`read_address` strictly on every iteration except a final zero-length
read, and only runs while `read_address ≤ address`, so the fuel
`address + b.length + 2` is never exhausted when the Python loop
terminates. -/
def next_address (b : List Nat) (address : Nat) : Option (Option Nat) :=
  match read_integer b 0 with
  | none => none
  | some len0 => next_address_aux b address (address + b.length + 2) 0 len0

end FileStorage

/-- State of the logical layer: the contents of the two storage files
(`self._key_storage`, `self._value_storage`). -/
structure Logical where
  key_storage : List Nat
  value_storage : List Nat
deriving DecidableEq

/-- Errors surfaced by the logical layer: `notFound` is the `KeyError`
raised by `_get`/`_pop`; `fault` stands for any other exception
(`struct.error`, a `pickle` failure, or a scan running off the end of
a corrupt file). -/
inductive DBErr
  | notFound
  | fault
deriving DecidableEq

/-- Fresh database: both storage files created empty and initialized
(`Logical.__init__` on a non-existent pair of files). -/
def Logical.fresh : Logical :=
  ⟨FileStorage.init [], FileStorage.init []⟩

/-- Simulated restart: re-open the same two files, re-running
`FileStorage.__init__` on their current contents. -/
def Logical.reopen (st : Logical) : Logical :=
  ⟨FileStorage.init st.key_storage, FileStorage.init st.value_storage⟩

section LogicalOps

variable {K V : Type} [DecidableEq K]

/-- Loop of `Logical._read_keys`: visit `address`, read the record
there, unpickle it when data is present, and continue at
`next_address` until it returns `None`.  In every reachable state the
addresses visited are the record starts followed by the frontier, so
the fuel `kb.length + 2` used by `read_keys` is never exhausted when
the Python loop terminates. -/
def Logical.read_keys_aux (decKT : List Nat → Option (K × Option Nat)) (kb : List Nat) :
    Nat → Nat → Option (List (K × Option Nat))
  | 0, _ => none
  | fuel + 1, addr =>
    match FileStorage.read kb addr with
    | none => none
    | some keyData =>
      match keyData with
      | none =>
        match FileStorage.next_address kb addr with
        | none => none
        | some none => some []
        | some (some a2) => Logical.read_keys_aux decKT kb fuel a2
      | some bs =>
        match decKT bs with
        | none => none
        | some kt =>
          match FileStorage.next_address kb addr with
          | none => none
          | some none => some [kt]
          | some (some a2) => (Logical.read_keys_aux decKT kb fuel a2).map (kt :: ·)

/-- Model of `Logical._read_keys`, starting at address 0. -/
def Logical.read_keys (decKT : List Nat → Option (K × Option Nat)) (kb : List Nat) :
    Option (List (K × Option Nat)) :=
  Logical.read_keys_aux decKT kb (kb.length + 2) 0

/-- Scan loop shared by `Logical._get` and `Logical._pop`: walk the
key list, and on every entry whose key equals `key` overwrite the
candidate `value_data` — with `None` when the entry's value address is
`None`, and with the bytes read from value storage otherwise. -/
def Logical.scan_values (vb : List Nat) (key : K) :
    List (K × Option Nat) → Option (List Nat) → Option (Option (List Nat))
  | [], vd => some vd
  | (k, va) :: rest, vd =>
    if k = key then
      match va with
      | none => Logical.scan_values vb key rest none
      | some a =>
        match FileStorage.read vb a with
        | none => none
        | some d => Logical.scan_values vb key rest d
    else Logical.scan_values vb key rest vd

/-- Model of `Logical._get`: read the key list, scan it, raise
`KeyError` when the final `value_data` is `None`, and unpickle it
otherwise. -/
def Logical.get (decKT : List Nat → Option (K × Option Nat)) (decV : List Nat → Option V)
    (st : Logical) (key : K) : Except DBErr V :=
  match Logical.read_keys decKT st.key_storage with
  | none => .error .fault
  | some kvs =>
    match Logical.scan_values st.value_storage key kvs none with
    | none => .error .fault
    | some none => .error .notFound
    | some (some vd) =>
      match decV vd with
      | none => .error .fault
      | some v => .ok v

/-- Model of `Logical._insert`: `value = some v` is a plain insert
(serialize the value, append it to value storage, then append the
pickled pair `(key, value_address)` to key storage); `value = none` is
the `for_deletion=True` call from `_pop`, which appends the pair
`(key, None)` without touching value storage.  The resulting state
records exactly the writes performed before any exception. -/
def Logical.insert (encKT : K × Option Nat → List Nat) (encV : V → List Nat)
    (st : Logical) (key : K) (value : Option V) : Except DBErr Unit × Logical :=
  match value with
  | none =>
    match FileStorage.append st.key_storage (encKT (key, none)) with
    | (none, kb') => (.error .fault, { st with key_storage := kb' })
    | (some _, kb') => (.ok (), { st with key_storage := kb' })
  | some v =>
    match FileStorage.append st.value_storage (encV v) with
    | (none, vb') => (.error .fault, { st with value_storage := vb' })
    | (some a, vb') =>
      match FileStorage.append st.key_storage (encKT (key, some a)) with
      | (none, kb') => (.error .fault, ⟨kb', vb'⟩)
      | (some _, kb') => (.ok (), ⟨kb', vb'⟩)

/-- Model of `Logical.set`. -/
def Logical.set (encKT : K × Option Nat → List Nat) (encV : V → List Nat)
    (st : Logical) (key : K) (value : V) : Except DBErr Unit × Logical :=
  Logical.insert encKT encV st key (some value)

/-- Model of `Logical._pop`: scan exactly as `_get`; raise `KeyError`
(leaving the state untouched) when the final `value_data` is `None`;
otherwise append the deletion record via `_insert(key, None,
for_deletion=True)` and only then unpickle the value bytes. -/
def Logical.pop (encKT : K × Option Nat → List Nat) (encV : V → List Nat)
    (decKT : List Nat → Option (K × Option Nat)) (decV : List Nat → Option V)
    (st : Logical) (key : K) : Except DBErr V × Logical :=
  match Logical.read_keys decKT st.key_storage with
  | none => (.error .fault, st)
  | some kvs =>
    match Logical.scan_values st.value_storage key kvs none with
    | none => (.error .fault, st)
    | some none => (.error .notFound, st)
    | some (some vd) =>
      match Logical.insert encKT encV st key none with
      | (.error e, st') => (.error e, st')
      | (.ok _, st') =>
        match decV vd with
        | none => (.error .fault, st')
        | some v => (.ok v, st')

/-- Run a list of `set` operations in order, stopping at the first
exception. -/
def Logical.runSets (encKT : K × Option Nat → List Nat) (encV : V → List Nat)
    (st : Logical) : List (K × V) → Except DBErr Logical
  | [] => .ok st
  | (k, v) :: rest =>
    match Logical.set encKT encV st k v with
    | (.ok _, st') => Logical.runSets encKT encV st' rest
    | (.error e, _) => .error e

/-- Run a list of `set` operations from a fresh database, then `get`. -/
def Logical.getAfterSets (encKT : K × Option Nat → List Nat) (encV : V → List Nat)
    (decKT : List Nat → Option (K × Option Nat)) (decV : List Nat → Option V)
    (ops : List (K × V)) (key : K) : Except DBErr V :=
  match Logical.runSets encKT encV Logical.fresh ops with
  | .error e => .error e
  | .ok st => Logical.get decKT decV st key

end LogicalOps

/-! ## Abstraction layer

Specification-side notions used to state the claims: the layout of a
well-formed storage file as a list of framed records, and the
"last binding wins" view of the key log. -/

/-- Frame written by `_write_formatted` for payload `p`: a two-byte
length prefix counting its own width, then the payload. -/
def encFrame (p : List Nat) : List Nat := u16 (p.length + 2) ++ p

/-- Concatenation of framed records, the data portion of a log. -/
def cf : List (List Nat) → List Nat
  | [] => []
  | p :: ps => encFrame p ++ cf ps

/-- Address (byte offset) of the `i`-th record of a log holding the
record payloads `ps`. -/
def addrOf (ps : List (List Nat)) (i : Nat) : Nat := (cf (ps.take i)).length

/-- A list of bytes that is entirely zero. -/
def zeros (z : List Nat) : Prop := ∀ x ∈ z, x = 0

/-- Well-formed storage file holding the record payloads `ps`: the
framed records followed by an all-zero tail of length at least 2 (so a
scan finds a zero length prefix at the frontier), every record small
enough for its length prefix to have been packed. -/
def WFst (ps : List (List Nat)) (b : List Nat) : Prop :=
  (∃ z, b = cf ps ++ z ∧ 2 ≤ z.length ∧ zeros z) ∧ ∀ p ∈ ps, p.length + 2 < 65536

section Abstraction

variable {K V : Type} [DecidableEq K]

/-- Most recent binding of `key` in the logical key list: `none` when
the key never appears, `some none` when its most recent binding is the
deletion marker, `some (some v)` when it is a live value. -/
def lastBinding (key : K) : List (K × Option V) → Option (Option V)
  | [] => none
  | (k, ov) :: rest =>
    match lastBinding key rest with
    | some x => some x
    | none => if k = key then some ov else none

/-- Value supplied by the most recent `set` of `key` in a list of set
operations. -/
def lastSet (key : K) : List (K × V) → Option V
  | [] => none
  | (k, v) :: rest =>
    match lastSet key rest with
    | some x => some x
    | none => if k = key then some v else none

/-- Specification-side mirror of the `_get`/`_pop` scan: walk the
bindings, overwriting the candidate on every match. -/
def scanSpec (key : K) : List (K × Option V) → Option V → Option V
  | [], cur => cur
  | (k, ov) :: rest, cur => scanSpec key rest (if k = key then ov else cur)

/-- Address `a` of value storage holds (as a record) bytes that decode
to the value `v`. -/
def ValOk (decV : List Nat → Option V) (vps : List (List Nat)) (a : Nat) (v : V) : Prop :=
  ∃ i p, i < vps.length ∧ vps[i]? = some p ∧ addrOf vps i = a ∧ decV p = some v

/-- One key-log entry `e` (as stored) corresponds to one logical
binding `le`: same key, and either both are the deletion marker or the
stored value address holds the logical value. -/
def EntryOk (decV : List Nat → Option V) (vps : List (List Nat))
    (e : K × Option Nat) (le : K × Option V) : Prop :=
  e.1 = le.1 ∧ ((e.2 = none ∧ le.2 = none) ∨
    ∃ a v, e.2 = some a ∧ le.2 = some v ∧ ValOk decV vps a v)

/-- Candidate `value_data` of the scan corresponds to a candidate
logical value. -/
def VDOk (decV : List Nat → Option V) (vd : Option (List Nat)) (ov : Option V) : Prop :=
  (vd = none ∧ ov = none) ∨ ∃ p v, vd = some p ∧ ov = some v ∧ decV p = some v

/-- A `Logical` state represents the logical binding list `l`: the key
file is a well-formed log of encoded `(key, value_address)` pairs, the
value file a well-formed log, and entry-wise the stored pairs
correspond to `l`. -/
def Models (encKT : K × Option Nat → List Nat) (decV : List Nat → Option V)
    (l : List (K × Option V)) (st : Logical) : Prop :=
  ∃ kvs vps, WFst (kvs.map encKT) st.key_storage ∧ WFst vps st.value_storage ∧
    List.Forall₂ (EntryOk decV vps) kvs l

end Abstraction

/-! ## Concrete serialization instances

Used by the witnesses: a trivially injective byte encoding for natural
number keys/values standing in for `pickle` (the core treats
serialization as an opaque injected function). -/

/-- Witness encoding of a value. -/
def encValN (v : Nat) : List Nat := [v]

/-- Witness decoding of a value. -/
def decValN : List Nat → Option Nat
  | [v] => some v
  | _ => none

/-- Witness encoding of a `(key, value_address)` pair. -/
def encKTN : Nat × Option Nat → List Nat
  | (k, none) => [k, 0]
  | (k, some a) => [k, a + 1]

/-- Witness decoding of a `(key, value_address)` pair. -/
def decKTN : List Nat → Option (Nat × Option Nat)
  | [k, 0] => some (k, none)
  | [k, a + 1] => some (k, some a)
  | _ => none

/-- Witness encoding whose output always exceeds the record size
limit. -/
def encBigN (v : Nat) : List Nat := List.replicate 65534 v

/-! ## Physical-layer lemmas -/

theorem encFrame_length (p : List Nat) : (encFrame p).length = p.length + 2 := by
  simp [encFrame, u16]

theorem cf_cons (p : List Nat) (ps : List (List Nat)) :
    cf (p :: ps) = encFrame p ++ cf ps := rfl

theorem cf_append (ps qs : List (List Nat)) : cf (ps ++ qs) = cf ps ++ cf qs := by
  induction ps with
  | nil => rfl
  | cons p ps ih => simp [cf, ih]

theorem length_le_cf (ps : List (List Nat)) : ps.length ≤ (cf ps).length := by
  induction ps with
  | nil => simp [cf]
  | cons p ps ih => simp [cf, encFrame_length]; omega

theorem addrOf_length (ps : List (List Nat)) : addrOf ps ps.length = (cf ps).length := by
  simp [addrOf, List.take_length]

theorem addrOf_succ (ps : List (List Nat)) (i : Nat) (h : i < ps.length) :
    addrOf ps (i + 1) = addrOf ps i + (ps[i].length + 2) := by
  unfold addrOf
  rw [← List.take_concat_get' ps i h, cf_append]
  simp [cf, encFrame_length]

theorem addrOf_le (ps : List (List Nat)) {j i : Nat} (h : j ≤ i) :
    addrOf ps j ≤ addrOf ps i := by
  have h2 := List.take_append_drop j (ps.take i)
  rw [List.take_take, Nat.min_eq_left h] at h2
  unfold addrOf
  rw [← h2, cf_append, List.length_append]
  omega

theorem addrOf_lt (ps : List (List Nat)) (i : Nat) (h : i < ps.length) :
    addrOf ps i < addrOf ps (i + 1) := by
  rw [addrOf_succ ps i h]; omega

theorem addrOf_le_cf (ps : List (List Nat)) (i : Nat) : addrOf ps i ≤ (cf ps).length := by
  conv_rhs => rw [← List.take_append_drop i ps]
  unfold addrOf
  rw [cf_append, List.length_append]
  omega

theorem cf_decomp (ps : List (List Nat)) (i : Nat) (h : i < ps.length) :
    cf ps = cf (ps.take i) ++ (encFrame ps[i] ++ cf (ps.drop (i + 1))) := by
  conv_lhs => rw [← List.take_append_drop i ps]
  rw [cf_append, List.drop_eq_getElem_cons h, cf_cons]

theorem read_integer_eq {b : List Nat} (pre : List Nat) (n : Nat) (rest : List Nat)
    (hb : b = pre ++ (u16 n ++ rest)) {p : Nat} (hp : p = pre.length) :
    read_integer b p = some n := by
  subst hb hp
  unfold read_integer readBytes
  rw [List.drop_left]
  have ht : (u16 n ++ rest).take 2 = [n / 256, n % 256] := rfl
  rw [ht]
  have h2 : n / 256 * 256 + n % 256 = n := by omega
  simp [h2]

theorem read_integer_bound {b : List Nat} {p n : Nat}
    (h : read_integer b p = some n) : p + 2 ≤ b.length := by
  by_contra hc
  unfold read_integer at h
  rcases ht : readBytes b p 2 with _ | ⟨x, _ | ⟨y, _ | ⟨w, t⟩⟩⟩ <;> rw [ht] at h <;> simp at h
  have hlen := congrArg List.length ht
  unfold readBytes at hlen
  simp [List.length_take, List.length_drop] at hlen
  omega

theorem readBytes_eq {b : List Nat} (pre s rest : List Nat)
    (hb : b = pre ++ (s ++ rest)) {p n : Nat} (hp : p = pre.length) (hn : n = s.length) :
    readBytes b p n = s := by
  subst hb hp hn
  unfold readBytes
  rw [List.drop_left, List.take_left]

theorem read_integer_frame {ps : List (List Nat)} {b : List Nat} (hwf : WFst ps b)
    {i : Nat} (h : i < ps.length) :
    read_integer b (addrOf ps i) = some (ps[i].length + 2) := by
  obtain ⟨⟨z, hb, _, _⟩, _⟩ := hwf
  refine read_integer_eq (cf (ps.take i)) _ (ps[i] ++ (cf (ps.drop (i + 1)) ++ z)) ?_ rfl
  rw [hb, cf_decomp ps i h]
  simp [encFrame, List.append_assoc]

theorem read_integer_frontier {ps : List (List Nat)} {b : List Nat} (hwf : WFst ps b) :
    read_integer b (cf ps).length = some 0 := by
  obtain ⟨⟨z, hb, hlen, hz⟩, _⟩ := hwf
  rcases z with _ | ⟨z0, _ | ⟨z1, zr⟩⟩
  · simp at hlen
  · simp at hlen
  · have h0 : z0 = 0 := hz _ (by simp)
    have h1 : z1 = 0 := hz _ (by simp)
    subst h0; subst h1
    exact read_integer_eq (cf ps) 0 zr hb rfl

theorem read_frame {ps : List (List Nat)} {b : List Nat} (hwf : WFst ps b)
    {i : Nat} (h : i < ps.length) :
    FileStorage.read b (addrOf ps i) = some (some ps[i]) := by
  have hri := read_integer_frame hwf h
  unfold FileStorage.read
  rw [hri]
  have hne : ¬(ps[i].length + 2 = 0) := by omega
  have hlt : ¬(ps[i].length + 2 < 2) := by omega
  show (if ps[i].length + 2 = 0 then some none
        else if ps[i].length + 2 < 2 then some (some (b.drop (addrOf ps i + 2)))
        else some (some (readBytes b (addrOf ps i + 2) (ps[i].length + 2 - 2)))) =
      some (some ps[i])
  rw [if_neg hne, if_neg hlt]
  obtain ⟨⟨z, hb, _, _⟩, _⟩ := hwf
  have hrb : readBytes b (addrOf ps i + 2) (ps[i].length + 2 - 2) = ps[i] := by
    refine readBytes_eq (cf (ps.take i) ++ u16 (ps[i].length + 2)) ps[i]
      (cf (ps.drop (i + 1)) ++ z) ?_ ?_ ?_
    · rw [hb, cf_decomp ps i h]
      simp [encFrame, List.append_assoc]
    · simp [addrOf, u16]
    · omega
  rw [hrb]

theorem seek_stops {b : List Nat} : ∀ {fuel p q : Nat},
    FileStorage.seek_formatted_data_end b fuel p = some q → read_integer b q = some 0 := by
  intro fuel
  induction fuel with
  | zero =>
    intro p q h
    exact absurd h (by simp [FileStorage.seek_formatted_data_end])
  | succ fuel ih =>
    intro p q h
    unfold FileStorage.seek_formatted_data_end at h
    rcases hr : read_integer b p with _ | l <;> rw [hr] at h
    · simp at h
    · have h2 : (if l = 0 then some p
          else FileStorage.seek_formatted_data_end b fuel (p + l)) = some q := h
      by_cases hl : l = 0
      · rw [if_pos hl] at h2
        have hp : p = q := by simpa using h2
        subst hp
        rw [hr, hl]
      · rw [if_neg hl] at h2
        exact ih h2

theorem seek_go {ps : List (List Nat)} {b : List Nat} (hwf : WFst ps b) :
    ∀ fuel i, i ≤ ps.length → ps.length - i < fuel →
    FileStorage.seek_formatted_data_end b fuel (addrOf ps i) = some (cf ps).length := by
  intro fuel
  induction fuel with
  | zero => intro i h1 h2; omega
  | succ fuel ih =>
    intro i h1 h2
    unfold FileStorage.seek_formatted_data_end
    rcases Nat.eq_or_lt_of_le h1 with he | hlt
    · rw [he, addrOf_length, read_integer_frontier hwf]
      simp
    · rw [read_integer_frame hwf hlt]
      have hne : ¬(ps[i].length + 2 = 0) := by omega
      show (if ps[i].length + 2 = 0 then some (addrOf ps i)
            else FileStorage.seek_formatted_data_end b fuel
              (addrOf ps i + (ps[i].length + 2))) = some (cf ps).length
      rw [if_neg hne, ← addrOf_succ ps i hlt]
      exact ih (i + 1) hlt (by omega)

theorem wf_length_le {ps : List (List Nat)} {b : List Nat} (hwf : WFst ps b) :
    (cf ps).length + 2 ≤ b.length := by
  obtain ⟨⟨z, hb, hlen, _⟩, _⟩ := hwf
  rw [hb]
  simp
  omega

theorem seek_end {ps : List (List Nat)} {b : List Nat} (hwf : WFst ps b) :
    FileStorage.seek_formatted_data_end b (b.length + 1) 0 = some (cf ps).length := by
  have hb := wf_length_le hwf
  have hc := length_le_cf ps
  exact seek_go hwf (b.length + 1) 0 (Nat.zero_le _) (by omega)

theorem writeAt_end (b s : List Nat) : writeAt b b.length s = b ++ s := by
  unfold writeAt
  rw [Nat.sub_self, List.take_length, List.drop_eq_nil_of_le (Nat.le_add_right _ _)]
  simp

theorem writeAt_eq {b : List Nat} {p : Nat} (h : p ≤ b.length) (s : List Nat) :
    writeAt b p s = b.take p ++ (s ++ b.drop (p + s.length)) := by
  unfold writeAt
  rw [Nat.sub_eq_zero_of_le h]
  simp

/-- Unfolding of a successful `append`: the address written to is
within the old file, the record fits the length prefix, and the new
file is the old one with the framed record spliced in at the returned
address and two zero bytes added at the end. -/
theorem append_eq {b data : List Nat} {a : Nat} {b' : List Nat}
    (h : FileStorage.append b data = (some a, b')) :
    a + 2 ≤ b.length ∧ data.length + 2 < 65536 ∧
      b' = (b.take a ++ (u16 (data.length + 2) ++ data) ++
        b.drop (a + (data.length + 2))) ++ [0, 0] := by
  unfold FileStorage.append at h
  rcases hs : FileStorage.seek_formatted_data_end b (b.length + 1) 0 with _ | a' <;>
    rw [hs] at h
  · simp at h
  · have hbound := read_integer_bound (seek_stops hs)
    by_cases hq : data.length + 2 < 65536
    · rw [show packU16 (data.length + 2) = some (u16 (data.length + 2)) from
        if_pos hq] at h
      have h2 : (some a',
          writeAt (writeAt b a' (u16 (data.length + 2) ++ data))
            (writeAt b a' (u16 (data.length + 2) ++ data)).length [0, 0]) =
          ((some a : Option Nat), b') := h
      have ha : a' = a := by
        have := congrArg Prod.fst h2
        simpa using this
      subst ha
      have hb' : b' = writeAt b a' (u16 (data.length + 2) ++ data) ++ [0, 0] := by
        have := congrArg Prod.snd h2
        rw [writeAt_end] at this
        simpa using this.symm
      refine ⟨by omega, hq, ?_⟩
      rw [hb', writeAt_eq (by omega)]
      have hlen : (u16 (data.length + 2) ++ data).length = data.length + 2 := by
        simp [u16]
      rw [hlen]
      simp [List.append_assoc]
    · rw [show packU16 (data.length + 2) = none from if_neg hq] at h
      simp at h

/-- Splice of a successful append into a well-formed file: the record
list grows by the payload and the zero tail stays well formed. -/
theorem append_wf {ps : List (List Nat)} {b : List Nat} (hwf : WFst ps b)
    {data : List Nat} (hq : data.length + 2 < 65536) :
    (FileStorage.append b data).1 = some (cf ps).length ∧
      WFst (ps ++ [data]) (FileStorage.append b data).2 := by
  obtain ⟨⟨z, hb, hzlen, hz⟩, hsz⟩ := hwf
  have hwf' : WFst ps b := ⟨⟨z, hb, hzlen, hz⟩, hsz⟩
  have hseek := seek_end hwf'
  unfold FileStorage.append
  rw [hseek, show packU16 (data.length + 2) = some (u16 (data.length + 2)) from if_pos hq]
  have hF : (cf ps).length ≤ b.length := by
    have := wf_length_le hwf'
    omega
  have hsplice : writeAt b (cf ps).length (u16 (data.length + 2) ++ data) =
      cf (ps ++ [data]) ++ z.drop (data.length + 2) := by
    rw [writeAt_eq hF, hb]
    have hlen : (u16 (data.length + 2) ++ data).length = data.length + 2 := by
      simp [u16]
    rw [hlen, List.take_left, List.drop_append, cf_append]
    simp [cf, encFrame, List.append_assoc]
  refine ⟨rfl, ⟨⟨z.drop (data.length + 2) ++ [0, 0], ?_, by simp, ?_⟩, ?_⟩⟩
  · show writeAt _ _ [0, 0] = _
    rw [writeAt_end, hsplice, List.append_assoc]
  · intro x hx
    rcases List.mem_append.1 hx with hx1 | hx2
    · exact hz _ (List.mem_of_mem_drop hx1)
    · simpa using hx2
  · intro p hp
    rcases List.mem_append.1 hp with hp1 | hp2
    · exact hsz _ hp1
    · have : p = data := by simpa using hp2
      rw [this]; exact hq

theorem na_run {ps : List (List Nat)} {b : List Nat} (hwf : WFst ps b)
    {i : Nat} (hi : i < ps.length) :
    ∀ fuel j len, j ≤ i → 0 < len → i - j + 2 ≤ fuel →
    FileStorage.next_address_aux b (addrOf ps i) fuel (addrOf ps j) len =
      some (some (addrOf ps (i + 1))) := by
  intro fuel
  induction fuel with
  | zero => intro j len h1 h2 h3; omega
  | succ fuel ih =>
    intro j len hj hlen hfuel
    unfold FileStorage.next_address_aux
    rw [if_pos ⟨addrOf_le ps hj, hlen⟩]
    have hjlt : j < ps.length := lt_of_le_of_lt hj hi
    rw [read_integer_frame hwf hjlt]
    show FileStorage.next_address_aux b (addrOf ps i) fuel
        (addrOf ps j + (ps[j].length + 2)) (ps[j].length + 2) = _
    rw [← addrOf_succ ps j hjlt]
    rcases Nat.eq_or_lt_of_le hj with he | hlt
    · subst he
      obtain ⟨f, rfl⟩ : ∃ f, fuel = f + 1 := ⟨fuel - 1, by omega⟩
      unfold FileStorage.next_address_aux
      have hgt := addrOf_lt ps j hjlt
      rw [if_neg (by omega : ¬(addrOf ps (j + 1) ≤ addrOf ps j ∧ 0 < ps[j].length + 2))]
      rw [if_neg (by omega : ¬addrOf ps (j + 1) = addrOf ps j)]
    · exact ih (j + 1) _ hlt (by omega) (by omega)

theorem na_frontier_run {ps : List (List Nat)} {b : List Nat} (hwf : WFst ps b) :
    ∀ fuel j len, j ≤ ps.length → 0 < len → ps.length - j + 3 ≤ fuel →
    FileStorage.next_address_aux b (cf ps).length fuel (addrOf ps j) len = some none := by
  intro fuel
  induction fuel with
  | zero => intro j len h1 h2 h3; omega
  | succ fuel ih =>
    intro j len hj hlen hfuel
    unfold FileStorage.next_address_aux
    rw [if_pos ⟨addrOf_le_cf ps j, hlen⟩]
    rcases Nat.eq_or_lt_of_le hj with he | hlt
    · subst he
      rw [addrOf_length, read_integer_frontier hwf]
      show FileStorage.next_address_aux b (cf ps).length fuel ((cf ps).length + 0) 0 =
        some none
      rw [Nat.add_zero]
      obtain ⟨f, rfl⟩ : ∃ f, fuel = f + 1 := ⟨fuel - 1, by omega⟩
      unfold FileStorage.next_address_aux
      rw [if_neg (by omega : ¬((cf ps).length ≤ (cf ps).length ∧ 0 < 0))]
      rw [if_pos rfl]
    · rw [read_integer_frame hwf hlt]
      show FileStorage.next_address_aux b (cf ps).length fuel
          (addrOf ps j + (ps[j].length + 2)) (ps[j].length + 2) = some none
      rw [← addrOf_succ ps j hlt]
      exact ih (j + 1) _ hlt (by omega) (by omega)

/-- Behaviour of `next_address` at every record start and at the
frontier of a well-formed log. -/
theorem next_address_spec {ps : List (List Nat)} {b : List Nat} (hwf : WFst ps b) :
    (∀ i, i < ps.length →
      FileStorage.next_address b (addrOf ps i) = some (some (addrOf ps (i + 1)))) ∧
    FileStorage.next_address b (cf ps).length = some none := by
  have hblen := wf_length_le hwf
  have hclen := length_le_cf ps
  constructor
  · intro i hi
    have hpos : 0 < ps.length := by omega
    have h0 : read_integer b 0 = some (ps[0].length + 2) := read_integer_frame hwf hpos
    unfold FileStorage.next_address
    rw [h0]
    have hi_le : addrOf ps i ≤ (cf ps).length := addrOf_le_cf ps i
    exact na_run hwf hi _ 0 _ (Nat.zero_le _) (by omega) (by omega)
  · rcases ps with _ | ⟨p, ps'⟩
    · unfold FileStorage.next_address
      have h0 : read_integer b 0 = some 0 := read_integer_frontier hwf
      rw [h0]
      show FileStorage.next_address_aux b 0 (0 + b.length + 2) 0 0 = some none
      obtain ⟨f, hf⟩ : ∃ f, 0 + b.length + 2 = f + 1 := ⟨b.length + 1, by omega⟩
      rw [hf]
      unfold FileStorage.next_address_aux
      rw [if_neg (by omega : ¬((0 : Nat) ≤ 0 ∧ 0 < 0)), if_pos rfl]
    · have hpos : 0 < (p :: ps').length := by simp
      have h0 : read_integer b 0 = some ((p :: ps')[0].length + 2) :=
        read_integer_frame hwf hpos
      unfold FileStorage.next_address
      rw [h0]
      exact na_frontier_run hwf _ 0 _ (Nat.zero_le _) (by omega) (by omega)

theorem read_frontier {ps : List (List Nat)} {b : List Nat} (hwf : WFst ps b) :
    FileStorage.read b (cf ps).length = some none := by
  unfold FileStorage.read
  rw [read_integer_frontier hwf]
  show (if (0 : Nat) = 0 then some none
        else if (0 : Nat) < 2 then some (some (b.drop ((cf ps).length + 2)))
        else some (some (readBytes b ((cf ps).length + 2) (0 - 2)))) = some none
  rw [if_pos rfl]

/-! ## Logical-layer lemmas -/

section LogicalLemmas

variable {K V : Type} [DecidableEq K]

theorem rk_run {encKT : K × Option Nat → List Nat}
    {decKT : List Nat → Option (K × Option Nat)}
    (hrt : ∀ x, decKT (encKT x) = some x)
    {kvs : List (K × Option Nat)} {kb : List Nat}
    (hwf : WFst (kvs.map encKT) kb) :
    ∀ fuel i, i ≤ kvs.length → kvs.length - i + 2 ≤ fuel →
    Logical.read_keys_aux decKT kb fuel (addrOf (kvs.map encKT) i) = some (kvs.drop i) := by
  have hna := next_address_spec hwf
  have hlen_map : (kvs.map encKT).length = kvs.length := List.length_map kvs encKT
  intro fuel
  induction fuel with
  | zero => intro i h1 h2; omega
  | succ fuel ih =>
    intro i hi hfuel
    unfold Logical.read_keys_aux
    rcases Nat.eq_or_lt_of_le hi with he | hlt
    · subst he
      have haddr : addrOf (kvs.map encKT) kvs.length = (cf (kvs.map encKT)).length := by
        rw [← hlen_map]; exact addrOf_length _
      rw [haddr]
      simp only [read_frontier hwf, hna.2, List.drop_length]
    · have hilt : i < (kvs.map encKT).length := by omega
      have hgm : (kvs.map encKT)[i] = encKT kvs[i] := List.getElem_map encKT
      simp only [read_frame hwf hilt, hgm, hrt kvs[i], hna.1 i hilt,
        ih (i + 1) hlt (by omega), Option.map_some']
      rw [← List.drop_eq_getElem_cons hlt]

theorem read_keys_wf {encKT : K × Option Nat → List Nat}
    {decKT : List Nat → Option (K × Option Nat)}
    (hrt : ∀ x, decKT (encKT x) = some x)
    {kvs : List (K × Option Nat)} {kb : List Nat}
    (hwf : WFst (kvs.map encKT) kb) :
    Logical.read_keys decKT kb = some kvs := by
  have hblen := wf_length_le hwf
  have hclen := length_le_cf (kvs.map encKT)
  have hlen_map : (kvs.map encKT).length = kvs.length := List.length_map kvs encKT
  have h := rk_run hrt hwf (kb.length + 2) 0 (Nat.zero_le _) (by omega)
  have h0 : addrOf (kvs.map encKT) 0 = 0 := rfl
  rw [h0, List.drop_zero] at h
  exact h

theorem scanSpec_eq_lastBinding (key : K) :
    ∀ (l : List (K × Option V)) (cur : Option V),
    scanSpec key l cur = (lastBinding key l).getD cur := by
  intro l
  induction l with
  | nil => intro cur; rfl
  | cons e rest ih =>
    intro cur
    obtain ⟨k, ov⟩ := e
    show scanSpec key rest (if k = key then ov else cur) =
      (lastBinding key ((k, ov) :: rest)).getD cur
    rw [ih]
    rcases hlb : lastBinding key rest with _ | x
    · by_cases hk : k = key <;>
        simp [lastBinding, hlb, hk]
    · simp [lastBinding, hlb]

theorem scan_run {decV : List Nat → Option V}
    {vps : List (List Nat)} {vb : List Nat} (hwf : WFst vps vb) (key : K) :
    ∀ {kvs : List (K × Option Nat)} {l : List (K × Option V)},
    List.Forall₂ (EntryOk decV vps) kvs l →
    ∀ {vd : Option (List Nat)} {ov : Option V}, VDOk decV vd ov →
    ∃ vd', Logical.scan_values vb key kvs vd = some vd' ∧
      VDOk decV vd' (scanSpec key l ov) := by
  intro kvs l hf
  induction hf with
  | nil => intro vd ov hvd; exact ⟨vd, rfl, hvd⟩
  | @cons e le kvs' l' he hftail ih =>
    intro vd ov hvd
    obtain ⟨k, va⟩ := e
    obtain ⟨k2, ov2⟩ := le
    have hkk : k = k2 := he.1
    subst hkk
    show ∃ vd', (if k = key then _ else Logical.scan_values vb key kvs' vd) = some vd' ∧
      VDOk decV vd' (scanSpec key l' (if k = key then ov2 else ov))
    by_cases hk : k = key
    · rw [if_pos hk, if_pos hk]
      rcases va with _ | a
      · have hov2 : ov2 = none := by
          rcases he.2 with ⟨_, h⟩ | ⟨a, v, hcontra, _⟩
          · exact h
          · exact absurd hcontra (by simp)
        subst hov2
        exact ih (Or.inl ⟨rfl, rfl⟩)
      · rcases he.2 with ⟨hcontra, _⟩ | ⟨a', v, ha', hov2, hval⟩
        · exact absurd hcontra (by simp)
        · subst hov2
          have haa : a = a' := by simpa using ha'
          subst haa
          obtain ⟨i, p, hi, hp, haddr, hdec⟩ := hval
          have hgp : vps[i] = p := by
            have := List.getElem?_eq_getElem hi
            rw [this] at hp
            simpa using hp
          have hread : FileStorage.read vb a = some (some p) := by
            rw [← haddr, read_frame hwf hi, hgp]
          show ∃ vd', (match FileStorage.read vb a with
              | none => none
              | some d => Logical.scan_values vb key kvs' d) = some vd' ∧
            VDOk decV vd' (scanSpec key l' (some v))
          rw [hread]
          exact ih (Or.inr ⟨p, v, rfl, rfl, hdec⟩)
    · rw [if_neg hk, if_neg hk]
      exact ih hvd

/-- Characterization of `Logical.get` on a represented state: the
answer is determined by the most recent binding of the key. -/
theorem get_models {encKT : K × Option Nat → List Nat}
    {decKT : List Nat → Option (K × Option Nat)} {decV : List Nat → Option V}
    (hrtk : ∀ x, decKT (encKT x) = some x)
    {l : List (K × Option V)} {st : Logical} (hm : Models encKT decV l st) (key : K) :
    Logical.get decKT decV st key =
      match lastBinding key l with
      | none => .error .notFound
      | some none => .error .notFound
      | some (some v) => .ok v := by
  obtain ⟨kvs, vps, hwfk, hwfv, hf⟩ := hm
  unfold Logical.get
  rw [read_keys_wf hrtk hwfk]
  obtain ⟨vd, hscan, hvd⟩ := scan_run hwfv key hf (Or.inl ⟨rfl, rfl⟩)
  rw [scanSpec_eq_lastBinding] at hvd
  show (match Logical.scan_values st.value_storage key kvs none with
        | none => Except.error DBErr.fault
        | some none => Except.error DBErr.notFound
        | some (some vd) =>
          match decV vd with
          | none => Except.error DBErr.fault
          | some v => Except.ok v) = _
  rw [hscan]
  rcases hlb : lastBinding key l with _ | ⟨_ | v⟩ <;> rw [hlb] at hvd
  · rcases hvd with ⟨hvd1, _⟩ | ⟨p, v, _, hcontra, _⟩
    · rw [hvd1]
    · exact absurd hcontra (by simp)
  · rcases hvd with ⟨hvd1, _⟩ | ⟨p, v, _, hcontra, _⟩
    · rw [hvd1]
    · exact absurd hcontra (by simp)
  · rcases hvd with ⟨_, hcontra⟩ | ⟨p, v2, hvd1, hv2, hdec⟩
    · exact absurd hcontra (by simp)
    · have hvv : v = v2 := by simpa using hv2
      subst hvv
      rw [hvd1]
      show (match decV p with
            | none => Except.error DBErr.fault
            | some w => Except.ok w) = Except.ok v
      rw [hdec]

theorem ValOk_mono {decV : List Nat → Option V} {vps : List (List Nat)} (x : List Nat)
    {a : Nat} {v : V} (h : ValOk decV vps a v) : ValOk decV (vps ++ [x]) a v := by
  obtain ⟨i, p, hi, hp, ha, hd⟩ := h
  refine ⟨i, p, by simp; omega, ?_, ?_, hd⟩
  · rw [List.getElem?_append_left hi]
    exact hp
  · rw [← ha]
    unfold addrOf
    rw [List.take_append_of_le_length (by omega)]

theorem EntryOk_mono {decV : List Nat → Option V} {vps : List (List Nat)} (x : List Nat)
    {e : K × Option Nat} {le : K × Option V} (h : EntryOk decV vps e le) :
    EntryOk decV (vps ++ [x]) e le := by
  obtain ⟨h1, h2⟩ := h
  refine ⟨h1, ?_⟩
  rcases h2 with h | ⟨a, v, h3, h4, h5⟩
  · exact Or.inl h
  · exact Or.inr ⟨a, v, h3, h4, ValOk_mono x h5⟩

theorem ValOk_new {decV : List Nat → Option V} {vps : List (List Nat)} {v : V}
    {p : List Nat} (hd : decV p = some v) :
    ValOk decV (vps ++ [p]) (cf vps).length v := by
  refine ⟨vps.length, p, by simp, List.getElem?_concat_length vps p, ?_, hd⟩
  unfold addrOf
  rw [List.take_append_of_le_length (le_refl _), List.take_length]

/-- A successful `set` appends a live binding to the represented
list. -/
theorem set_models {encKT : K × Option Nat → List Nat} {encV : V → List Nat}
    {decV : List Nat → Option V}
    (hrtv : ∀ w, decV (encV w) = some w)
    (hszk : ∀ x, (encKT x).length + 2 < 65536)
    {l : List (K × Option V)} {st : Logical} (hm : Models encKT decV l st)
    (key : K) (v : V) (hszv : (encV v).length + 2 < 65536) :
    (Logical.set encKT encV st key v).1 = .ok () ∧
      Models encKT decV (l ++ [(key, some v)]) (Logical.set encKT encV st key v).2 := by
  obtain ⟨kvs, vps, hwfk, hwfv, hf⟩ := hm
  have hva := append_wf hwfv hszv
  have hka := append_wf hwfk (hszk (key, some (cf vps).length))
  rcases hav : FileStorage.append st.value_storage (encV v) with ⟨r1, vb'⟩
  rw [hav] at hva
  have hr1 : r1 = some (cf vps).length := hva.1
  subst hr1
  rcases hak : FileStorage.append st.key_storage (encKT (key, some (cf vps).length))
    with ⟨r2, kb'⟩
  rw [hak] at hka
  have hr2 : r2 = some (cf (kvs.map encKT)).length := hka.1
  subst hr2
  have hset : Logical.set encKT encV st key v = (.ok (), ⟨kb', vb'⟩) := by
    unfold Logical.set Logical.insert
    simp only [hav, hak]
  rw [hset]
  refine ⟨rfl, kvs ++ [(key, some (cf vps).length)], vps ++ [encV v], ?_, ?_, ?_⟩
  · have h2 := hka.2
    simpa [List.map_append] using h2
  · exact hva.2
  · refine List.rel_append (List.Forall₂.imp (fun a b h => EntryOk_mono _ h) hf) ?_
    exact List.Forall₂.cons
      ⟨rfl, Or.inr ⟨(cf vps).length, v, rfl, rfl, ValOk_new (hrtv v)⟩⟩ List.Forall₂.nil

/-- A `pop` of an absent or deleted key fails with `KeyError` and
leaves the state untouched. -/
theorem pop_fail_models {encKT : K × Option Nat → List Nat} (encV : V → List Nat)
    {decKT : List Nat → Option (K × Option Nat)} {decV : List Nat → Option V}
    (hrtk : ∀ x, decKT (encKT x) = some x)
    {l : List (K × Option V)} {st : Logical} (hm : Models encKT decV l st) (key : K)
    (hlb : lastBinding key l = none ∨ lastBinding key l = some none) :
    Logical.pop encKT encV decKT decV st key = (.error .notFound, st) := by
  obtain ⟨kvs, vps, hwfk, hwfv, hf⟩ := hm
  obtain ⟨vd, hscan, hvd⟩ := scan_run hwfv key hf (Or.inl ⟨rfl, rfl⟩)
  rw [scanSpec_eq_lastBinding] at hvd
  have hvdn : vd = none := by
    rcases hlb with h | h <;> rw [h] at hvd <;>
      rcases hvd with ⟨h1, _⟩ | ⟨p, w, _, hcontra, _⟩
    · exact h1
    · exact absurd hcontra (by simp)
    · exact h1
    · exact absurd hcontra (by simp)
  subst hvdn
  unfold Logical.pop
  simp only [read_keys_wf hrtk hwfk, hscan]

/-- A successful `pop` returns the last value and appends the deletion
marker. -/
theorem pop_ok_models {encKT : K × Option Nat → List Nat} (encV : V → List Nat)
    {decKT : List Nat → Option (K × Option Nat)} {decV : List Nat → Option V}
    (hrtk : ∀ x, decKT (encKT x) = some x)
    (hszk : ∀ x, (encKT x).length + 2 < 65536)
    {l : List (K × Option V)} {st : Logical} (hm : Models encKT decV l st)
    (key : K) (v : V) (hlb : lastBinding key l = some (some v)) :
    (Logical.pop encKT encV decKT decV st key).1 = .ok v ∧
      Models encKT decV (l ++ [(key, none)])
        (Logical.pop encKT encV decKT decV st key).2 := by
  obtain ⟨kvs, vps, hwfk, hwfv, hf⟩ := hm
  obtain ⟨vd, hscan, hvd⟩ := scan_run hwfv key hf (Or.inl ⟨rfl, rfl⟩)
  rw [scanSpec_eq_lastBinding, hlb] at hvd
  obtain ⟨p, w, hvdp, hw, hdec⟩ : ∃ p w, vd = some p ∧
      ((some (some v) : Option (Option V)).getD none = some w) ∧ decV p = some w := by
    rcases hvd with ⟨_, hcontra⟩ | h
    · exact absurd hcontra (by simp)
    · exact h
  have hwv : v = w := by simpa using hw
  subst hwv
  subst hvdp
  have hka := append_wf hwfk (hszk (key, none))
  rcases hak : FileStorage.append st.key_storage (encKT (key, none)) with ⟨r2, kb'⟩
  rw [hak] at hka
  have hr2 : r2 = some (cf (kvs.map encKT)).length := hka.1
  subst hr2
  have hpop : Logical.pop encKT encV decKT decV st key =
      (.ok v, { st with key_storage := kb' }) := by
    unfold Logical.pop Logical.insert
    simp only [read_keys_wf hrtk hwfk, hscan, hak, hdec]
  rw [hpop]
  refine ⟨rfl, kvs ++ [(key, none)], vps, ?_, hwfv, ?_⟩
  · have h2 := hka.2
    simpa [List.map_append] using h2
  · exact List.rel_append hf
      (List.Forall₂.cons ⟨rfl, Or.inl ⟨rfl, rfl⟩⟩ List.Forall₂.nil)

theorem zeros_last_byte {z : List Nat} (hz : zeros z) (h : 1 ≤ z.length) :
    (z.drop (z.length - 1)).take 1 = [0] := by
  have hlt : z.length - 1 < z.length := by omega
  rw [List.drop_eq_getElem_cons hlt]
  have he : z.length - 1 + 1 = z.length := by omega
  rw [he, List.drop_length]
  have h0 : z[z.length - 1] = 0 := hz _ (List.getElem_mem hlt)
  rw [h0]
  rfl

theorem init_wf {ps : List (List Nat)} {b : List Nat} (hwf : WFst ps b) :
    FileStorage.init b = b := by
  obtain ⟨⟨z, hb, hzlen, hz⟩, _⟩ := hwf
  have hblen : b.length = (cf ps).length + z.length := by rw [hb]; simp
  have hbne : ¬(b.length = 0) := by omega
  have hlast : readBytes b (b.length - 1) 1 = [0] := by
    unfold readBytes
    have heq : b.length - 1 = (cf ps).length + (z.length - 1) := by omega
    rw [heq, hb, List.drop_append]
    exact zeros_last_byte hz (by omega)
  unfold FileStorage.init
  rw [if_neg hbne, if_pos hlast]

/-- Re-opening the files of a represented state changes nothing: both
files end in a zero byte, so `FileStorage.__init__` leaves them
untouched. -/
theorem reopen_models {encKT : K × Option Nat → List Nat} {decV : List Nat → Option V}
    {l : List (K × Option V)} {st : Logical} (hm : Models encKT decV l st) :
    Logical.reopen st = st := by
  obtain ⟨kvs, vps, hwfk, hwfv, _⟩ := hm
  unfold Logical.reopen
  rw [init_wf hwfk, init_wf hwfv]

/-- The fresh database represents the empty binding list. -/
theorem fresh_models (encKT : K × Option Nat → List Nat) (decV : List Nat → Option V) :
    Models (K := K) encKT decV [] Logical.fresh := by
  have hinit : FileStorage.init [] = List.replicate 256 0 := by
    unfold FileStorage.init writeAt
    simp
  refine ⟨[], [], ?_, ?_, List.Forall₂.nil⟩ <;>
    refine ⟨⟨List.replicate 256 0, ?_, by simp,
      fun x hx => List.eq_of_mem_replicate hx⟩, by simp⟩ <;>
    simp [Logical.fresh, hinit, cf]

end LogicalLemmas

/-- Helper for C10: an oversized payload makes `struct.pack` fail
before anything is written, so `append` raises and returns the file
unchanged. -/
theorem append_too_big {b data : List Nat} (h : 65533 < data.length) :
    FileStorage.append b data = (none, b) := by
  have hpack : packU16 (data.length + 2) = none := if_neg (by omega)
  unfold FileStorage.append
  rcases hs : FileStorage.seek_formatted_data_end b (b.length + 1) 0 with _ | addr <;>
    simp only [hs, hpack]

section RunLemmas

variable {K V : Type} [DecidableEq K]

theorem lastBinding_snoc (key : K) (l : List (K × Option V)) (ov : Option V) :
    lastBinding key (l ++ [(key, ov)]) = some ov := by
  induction l with
  | nil => simp [lastBinding]
  | cons e rest ih =>
    obtain ⟨k, w⟩ := e
    show (match lastBinding key (rest ++ [(key, ov)]) with
          | some x => some x
          | none => if k = key then some w else none) = some ov
    rw [ih]

theorem lastBinding_map_lastSet (key : K) (ops : List (K × V)) :
    lastBinding key (ops.map (fun p => (p.1, some p.2))) = (lastSet key ops).map some := by
  induction ops with
  | nil => rfl
  | cons kv rest ih =>
    obtain ⟨k, v⟩ := kv
    simp only [List.map_cons, lastBinding, lastSet, ih]
    rcases lastSet key rest with _ | x
    · by_cases hk : k = key <;> simp [hk]
    · simp

theorem runSets_models {encKT : K × Option Nat → List Nat} {encV : V → List Nat}
    {decV : List Nat → Option V}
    (hrtv : ∀ w, decV (encV w) = some w)
    (hszk : ∀ x, (encKT x).length + 2 < 65536)
    (hszv : ∀ w, (encV w).length + 2 < 65536) :
    ∀ (ops : List (K × V)) {l : List (K × Option V)} {st : Logical},
    Models encKT decV l st →
    ∃ st', Logical.runSets encKT encV st ops = .ok st' ∧
      Models encKT decV (l ++ ops.map (fun p => (p.1, some p.2))) st' := by
  intro ops
  induction ops with
  | nil => intro l st hm; exact ⟨st, rfl, by simpa using hm⟩
  | cons kv rest ih =>
    intro l st hm
    obtain ⟨k, v⟩ := kv
    have hset := set_models hrtv hszk hm k v (hszv v)
    obtain ⟨st', hrun, hm'⟩ := ih hset.2
    refine ⟨st', ?_, ?_⟩
    · unfold Logical.runSets
      rcases hs : Logical.set encKT encV st k v with ⟨r, st1⟩
      rw [hs] at hset
      have hr : r = .ok () := hset.1
      subst hr
      rw [hs] at hrun
      simp only [hs]
      exact hrun
    · simpa [List.append_assoc] using hm'

end RunLemmas

/-- Round trip of the concrete witness key-pair encoding. -/
theorem decKTN_encKTN : ∀ x : Nat × Option Nat, decKTN (encKTN x) = some x := by
  rintro ⟨k, _ | a⟩ <;> rfl

/-- Round trip of the concrete witness value encoding. -/
theorem decValN_encValN : ∀ w : Nat, decValN (encValN w) = some w := fun _ => rfl

/-- The concrete key-pair encoding always fits a record. -/
theorem encKTN_small : ∀ x, (encKTN x).length + 2 < 65536 := by
  rintro ⟨k, _ | a⟩ <;> exact (by decide : (4 : Nat) < 65536)

/-- The concrete value encoding always fits a record. -/
theorem encValN_small : ∀ w, (encValN w).length + 2 < 65536 :=
  fun _ => (by decide : (3 : Nat) < 65536)

/-! ## Claim theorems -/

/-- C1: last-write-wins lookup — running any sequence of `set`
operations from a fresh database, `get key` returns the value supplied
by the most recent `set` of that key (the last binding in the key
log). In particular `set(k,v1); set(k,v2); get(k) = v2`. -/
theorem C1_last_write_wins {K V : Type} [DecidableEq K]
    (encKT : K × Option Nat → List Nat) (decKT : List Nat → Option (K × Option Nat))
    (encV : V → List Nat) (decV : List Nat → Option V)
    (hrtk : ∀ x, decKT (encKT x) = some x) (hrtv : ∀ w, decV (encV w) = some w)
    (hszk : ∀ x, (encKT x).length + 2 < 65536)
    (hszv : ∀ w, (encV w).length + 2 < 65536)
    (ops : List (K × V)) (key : K) (v : V) (h : lastSet key ops = some v) :
    Logical.getAfterSets encKT encV decKT decV ops key = .ok v := by
  obtain ⟨st', hrun, hm'⟩ := runSets_models hrtv hszk hszv ops (fresh_models encKT decV)
  unfold Logical.getAfterSets
  rw [hrun]
  show Logical.get decKT decV st' key = .ok v
  rw [get_models hrtk hm' key]
  have hl : lastBinding key (([] : List (K × Option V)) ++
      ops.map (fun p => (p.1, some p.2))) = some (some v) := by
    rw [List.nil_append, lastBinding_map_lastSet, h]
    rfl
  rw [hl]

/-- Witness for C1: two sets of key 0, lookup returns the second. -/
theorem C1_witness :
    Logical.getAfterSets encKTN encValN decKTN decValN [(0, 5), (0, 7)] 0 = .ok 7 :=
  C1_last_write_wins encKTN decKTN encValN decValN decKTN_encKTN decValN_encValN
    encKTN_small encValN_small [(0, 5), (0, 7)] 0 7 rfl

/-- C2 counterexample: with concrete serialization, `set 0 5` on a
fresh store without any commit, followed by a simulated restart
(re-opening both storage files), still yields `get 0 = 5` — not the
`NotFound` failure the claim requires. The code has no commit
operation: every write is flushed to the file immediately. -/
theorem C2_counterexample :
    Logical.get decKTN decValN
      (Logical.reopen (Logical.set encKTN encValN Logical.fresh 0 5).2) 0 = .ok 5 ∧
    Logical.get decKTN decValN
      (Logical.reopen (Logical.set encKTN encValN Logical.fresh 0 5).2) 0 ≠
      .error .notFound := by
  constructor
  · rfl
  · intro h
    have h2 : (Except.ok 5 : Except DBErr Nat) = .error .notFound := h
    exact Except.noConfusion h2

/-- C2 (amended): the code has no commit step and every `set`/`pop`
is durable immediately (each write is flushed); a simulated restart
is an identity on any represented state, so `set(k,v)` followed by
re-opening the same resource yields `get(k) = v`, not `NotFound`. -/
theorem C2_durability_amended {K V : Type} [DecidableEq K]
    (encKT : K × Option Nat → List Nat) (decKT : List Nat → Option (K × Option Nat))
    (encV : V → List Nat) (decV : List Nat → Option V)
    (hrtk : ∀ x, decKT (encKT x) = some x) (hrtv : ∀ w, decV (encV w) = some w)
    (hszk : ∀ x, (encKT x).length + 2 < 65536)
    {l : List (K × Option V)} {st : Logical} (hm : Models encKT decV l st)
    (key : K) (v : V) (hszv : (encV v).length + 2 < 65536) :
    (Logical.set encKT encV st key v).1 = .ok () ∧
    Logical.reopen (Logical.set encKT encV st key v).2 =
      (Logical.set encKT encV st key v).2 ∧
    Logical.get decKT decV (Logical.reopen (Logical.set encKT encV st key v).2) key =
      .ok v := by
  have hset := set_models hrtv hszk hm key v hszv
  have hro := reopen_models hset.2
  refine ⟨hset.1, hro, ?_⟩
  rw [hro, get_models hrtk hset.2 key, lastBinding_snoc]

/-- Witness for the amended C2. -/
theorem C2_amended_witness :
    (Logical.set encKTN encValN Logical.fresh 0 5).1 = .ok () ∧
    Logical.get decKTN decValN
      (Logical.reopen (Logical.set encKTN encValN Logical.fresh 0 5).2) 0 = .ok 5 := by
  have h := C2_durability_amended encKTN decKTN encValN decValN decKTN_encKTN
    decValN_encValN encKTN_small (fresh_models encKTN decValN) 0 5 (encValN_small 5)
  exact ⟨h.1, h.2.2⟩

/-- C3: from any represented state, `set k v` succeeds, `pop k`
returns `v`, and afterwards both `get k` and `pop k` fail with
`KeyError` (NotFound). -/
theorem C3_set_pop {K V : Type} [DecidableEq K]
    (encKT : K × Option Nat → List Nat) (decKT : List Nat → Option (K × Option Nat))
    (encV : V → List Nat) (decV : List Nat → Option V)
    (hrtk : ∀ x, decKT (encKT x) = some x) (hrtv : ∀ w, decV (encV w) = some w)
    (hszk : ∀ x, (encKT x).length + 2 < 65536)
    {l : List (K × Option V)} {st : Logical} (hm : Models encKT decV l st)
    (key : K) (v : V) (hszv : (encV v).length + 2 < 65536) :
    (Logical.set encKT encV st key v).1 = .ok () ∧
    (Logical.pop encKT encV decKT decV (Logical.set encKT encV st key v).2 key).1 =
      .ok v ∧
    Logical.get decKT decV
      (Logical.pop encKT encV decKT decV (Logical.set encKT encV st key v).2 key).2 key =
      .error .notFound ∧
    (Logical.pop encKT encV decKT decV
      (Logical.pop encKT encV decKT decV (Logical.set encKT encV st key v).2 key).2
      key).1 = .error .notFound := by
  have hset := set_models hrtv hszk hm key v hszv
  have hpop := pop_ok_models encV hrtk hszk hset.2 key v (lastBinding_snoc key l (some v))
  have hlb2 : lastBinding key ((l ++ [(key, some v)]) ++ [(key, none)]) = some none :=
    lastBinding_snoc key (l ++ [(key, some v)]) none
  refine ⟨hset.1, hpop.1, ?_, ?_⟩
  · rw [get_models hrtk hpop.2 key, hlb2]
  · rw [pop_fail_models encV hrtk hpop.2 key (Or.inr hlb2)]

/-- Witness for C3 from the fresh database. -/
theorem C3_witness :
    (Logical.pop encKTN encValN decKTN decValN
        (Logical.set encKTN encValN Logical.fresh 0 5).2 0).1 = .ok 5 ∧
    Logical.get decKTN decValN
      (Logical.pop encKTN encValN decKTN decValN
        (Logical.set encKTN encValN Logical.fresh 0 5).2 0).2 0 = .error .notFound ∧
    (Logical.pop encKTN encValN decKTN decValN
      (Logical.pop encKTN encValN decKTN decValN
        (Logical.set encKTN encValN Logical.fresh 0 5).2 0).2 0).1 =
      .error .notFound := by
  have h := C3_set_pop encKTN decKTN encValN decValN decKTN_encKTN decValN_encValN
    encKTN_small (fresh_models encKTN decValN) 0 5 (encValN_small 5)
  exact ⟨h.2.1, h.2.2.1, h.2.2.2⟩

/-- C4: on a represented state, `get` (and `pop`) fail with `KeyError`
exactly when the key has no binding or its most recent binding is the
deletion marker; in every other case both succeed and return the
bound value. -/
theorem C4_notfound_iff {K V : Type} [DecidableEq K]
    (encKT : K × Option Nat → List Nat) (decKT : List Nat → Option (K × Option Nat))
    (encV : V → List Nat) (decV : List Nat → Option V)
    (hrtk : ∀ x, decKT (encKT x) = some x)
    (hszk : ∀ x, (encKT x).length + 2 < 65536)
    {l : List (K × Option V)} {st : Logical} (hm : Models encKT decV l st) (key : K) :
    (Logical.get decKT decV st key = .error .notFound ↔
      (lastBinding key l = none ∨ lastBinding key l = some none)) ∧
    ((Logical.pop encKT encV decKT decV st key).1 = .error .notFound ↔
      (lastBinding key l = none ∨ lastBinding key l = some none)) ∧
    (∀ v, lastBinding key l = some (some v) →
      Logical.get decKT decV st key = .ok v ∧
      (Logical.pop encKT encV decKT decV st key).1 = .ok v) := by
  refine ⟨⟨?_, ?_⟩, ⟨?_, ?_⟩, ?_⟩
  · intro h
    rw [get_models hrtk hm key] at h
    rcases hlb : lastBinding key l with _ | ⟨_ | v⟩ <;> rw [hlb] at h
    · exact Or.inl rfl
    · exact Or.inr rfl
    · exact absurd h (by simp)
  · intro h
    rw [get_models hrtk hm key]
    rcases h with h | h <;> rw [h]
  · intro h
    by_contra hc
    push_neg at hc
    rcases hlb : lastBinding key l with _ | ⟨_ | v⟩
    · exact hc.1 hlb
    · exact hc.2 hlb
    · have hk := (pop_ok_models encV hrtk hszk hm key v hlb).1
      rw [hk] at h
      exact absurd h (by simp)
  · intro h
    rw [pop_fail_models encV hrtk hm key h]
  · intro v hlb
    refine ⟨?_, (pop_ok_models encV hrtk hszk hm key v hlb).1⟩
    rw [get_models hrtk hm key, hlb]

/-- Witness for C4: after `set 0 5`, key 0 succeeds with 5 and key 1
fails NotFound. -/
theorem C4_witness :
    Logical.get decKTN decValN (Logical.set encKTN encValN Logical.fresh 0 5).2 0 =
      .ok 5 ∧
    (Logical.pop encKTN encValN decKTN decValN
      (Logical.set encKTN encValN Logical.fresh 0 5).2 0).1 = .ok 5 ∧
    Logical.get decKTN decValN (Logical.set encKTN encValN Logical.fresh 0 5).2 1 =
      .error .notFound := by
  have hm := (set_models decValN_encValN encKTN_small
    (fresh_models encKTN decValN) 0 5 (encValN_small 5)).2
  have hc0 := C4_notfound_iff encKTN decKTN encValN decValN decKTN_encKTN
    encKTN_small hm 0
  have hc1 := C4_notfound_iff encKTN decKTN encValN decValN decKTN_encKTN
    encKTN_small hm 1
  exact ⟨(hc0.2.2 5 rfl).1, (hc0.2.2 5 rfl).2, hc1.1.mpr (Or.inl rfl)⟩

/-- C5: re-insertion after deletion is visible — from any represented
state, `set k v1; pop k; set k v2` makes `get k` return `v2`: the
fresh binding shadows the deletion marker under the last-match-wins
scan. -/
theorem C5_reinsert_after_delete {K V : Type} [DecidableEq K]
    (encKT : K × Option Nat → List Nat) (decKT : List Nat → Option (K × Option Nat))
    (encV : V → List Nat) (decV : List Nat → Option V)
    (hrtk : ∀ x, decKT (encKT x) = some x) (hrtv : ∀ w, decV (encV w) = some w)
    (hszk : ∀ x, (encKT x).length + 2 < 65536)
    {l : List (K × Option V)} {st : Logical} (hm : Models encKT decV l st)
    (key : K) (v1 v2 : V)
    (hszv1 : (encV v1).length + 2 < 65536) (hszv2 : (encV v2).length + 2 < 65536) :
    Logical.get decKT decV
      (Logical.set encKT encV
        (Logical.pop encKT encV decKT decV
          (Logical.set encKT encV st key v1).2 key).2 key v2).2 key = .ok v2 := by
  have hset1 := set_models hrtv hszk hm key v1 hszv1
  have hpop := pop_ok_models encV hrtk hszk hset1.2 key v1 (lastBinding_snoc key l (some v1))
  have hset2 := set_models hrtv hszk hpop.2 key v2 hszv2
  rw [get_models hrtk hset2.2 key, lastBinding_snoc]

/-- Witness for C5 from the fresh database. -/
theorem C5_witness :
    Logical.get decKTN decValN
      (Logical.set encKTN encValN
        (Logical.pop encKTN encValN decKTN decValN
          (Logical.set encKTN encValN Logical.fresh 0 1).2 0).2 0 2).2 0 = .ok 2 :=
  C5_reinsert_after_delete encKTN decKTN encValN decValN decKTN_encKTN
    decValN_encValN encKTN_small (fresh_models encKTN decValN) 0 1 2
    (encValN_small 1) (encValN_small 2)

/-- C9: pop is atomic on failure — whenever `pop` raises the
not-found error, neither the key log nor the value log is modified:
the deletion record is appended only after the lookup has succeeded. -/
theorem C9_pop_atomic {K V : Type} [DecidableEq K]
    (encKT : K × Option Nat → List Nat) (encV : V → List Nat)
    (decKT : List Nat → Option (K × Option Nat)) (decV : List Nat → Option V)
    (st : Logical) (key : K)
    (h : (Logical.pop encKT encV decKT decV st key).1 = .error .notFound) :
    (Logical.pop encKT encV decKT decV st key).2 = st := by
  unfold Logical.pop at h ⊢
  rcases hrk : Logical.read_keys decKT st.key_storage with _ | kvs
  all_goals simp only [hrk] at h ⊢
  all_goals try rfl
  rcases hsc : Logical.scan_values st.value_storage key kvs none with _ | (_ | p)
  all_goals simp only [hsc] at h ⊢
  all_goals try rfl
  exfalso
  unfold Logical.insert at h
  rcases hap : FileStorage.append st.key_storage (encKT (key, none)) with ⟨ra, kb'⟩
  simp only [hap] at h
  rcases ra with _ | a
  · simp at h
  · rcases hdv : decV p with _ | w <;> simp only [hdv] at h <;> simp at h

/-- Witness for C9: popping a missing key from the fresh database. -/
theorem C9_witness :
    (Logical.pop encKTN encValN decKTN decValN Logical.fresh 0).1 = .error .notFound ∧
    (Logical.pop encKTN encValN decKTN decValN Logical.fresh 0).2 = Logical.fresh :=
  ⟨rfl, C9_pop_atomic encKTN encValN decKTN decValN Logical.fresh 0 rfl⟩

/-- C6: append/read round trip — for every byte string `data`, if
appending `data` to a file `b` succeeds, returning address `a` and
file contents `b'`, then reading `b'` at `a` returns exactly the
payload `data`. -/
theorem C6_append_read_roundtrip (b data : List Nat) (a : Nat) (b' : List Nat)
    (h : FileStorage.append b data = (some a, b')) :
    FileStorage.read b' a = some (some data) := by
  obtain ⟨hb, hq, hb'⟩ := append_eq h
  have hlen : (b.take a).length = a := by rw [List.length_take]; omega
  have hbeq : b' = b.take a ++ (u16 (data.length + 2) ++
      (data ++ (b.drop (a + (data.length + 2)) ++ [0, 0]))) := by
    rw [hb']; simp [List.append_assoc]
  unfold FileStorage.read
  rw [read_integer_eq _ _ _ hbeq hlen.symm]
  have hne : ¬(data.length + 2 = 0) := by omega
  have hlt2 : ¬(data.length + 2 < 2) := by omega
  show (if data.length + 2 = 0 then some none
        else if data.length + 2 < 2 then some (some (b'.drop (a + 2)))
        else some (some (readBytes b' (a + 2) (data.length + 2 - 2)))) = some (some data)
  rw [if_neg hne, if_neg hlt2]
  have hrb : readBytes b' (a + 2) (data.length + 2 - 2) = data := by
    refine readBytes_eq (b.take a ++ u16 (data.length + 2)) data
      (b.drop (a + (data.length + 2)) ++ [0, 0]) ?_ ?_ ?_
    · rw [hbeq]; simp [List.append_assoc]
    · simp [u16, hlen]
    · omega
  rw [hrb]

/-- Witness for C6: appending `[1,2,3]` to the minimal well-formed
file and reading it back. -/
theorem C6_witness :
    FileStorage.append [0, 0] [1, 2, 3] = (some 0, [0, 5, 1, 2, 3, 0, 0]) ∧
      FileStorage.read [0, 5, 1, 2, 3, 0, 0] 0 = some (some [1, 2, 3]) :=
  ⟨rfl, C6_append_read_roundtrip [0, 0] [1, 2, 3] 0 [0, 5, 1, 2, 3, 0, 0] rfl⟩

/-- C7 counterexample: in the well-formed log `[0,3,7,0,0]` the single
record `[7]` starts at address 0 and is the last record of the log,
yet `next_address 0` returns the frontier address 3 (the position of
the zero marker) instead of `None` as the claim states. -/
theorem C7_counterexample :
    WFst [[7]] [0, 3, 7, 0, 0] ∧
      FileStorage.next_address [0, 3, 7, 0, 0] 0 = some (some 3) ∧
      FileStorage.next_address [0, 3, 7, 0, 0] 0 ≠ some none := by
  refine ⟨⟨⟨[0, 0], rfl, by simp, by simp [zeros]⟩, by decide⟩, rfl, ?_⟩
  intro h
  have h2 : (some (some 3) : Option (Option Nat)) = some none := h
  simp at h2

/-- C7 (amended): on a well-formed log, `next_address` at the `i`-th
record start returns the position immediately after that record — the
next record's start when one exists, and otherwise the frontier
address, where `read` reports no data; `next_address` returns `None`
exactly when called on the frontier itself. -/
theorem C7_next_address_amended {ps : List (List Nat)} {b : List Nat} (hwf : WFst ps b) :
    (∀ i, i < ps.length →
      FileStorage.next_address b (addrOf ps i) = some (some (addrOf ps (i + 1)))) ∧
    FileStorage.next_address b (cf ps).length = some none ∧
    FileStorage.read b (cf ps).length = some none :=
  ⟨(next_address_spec hwf).1, (next_address_spec hwf).2, read_frontier hwf⟩

/-- Witness for the amended C7 on the one-record log. -/
theorem C7_amended_witness :
    FileStorage.next_address [0, 3, 7, 0, 0] (addrOf [[7]] 0) =
      some (some (addrOf [[7]] 1)) ∧
    FileStorage.next_address [0, 3, 7, 0, 0] (cf [[7]]).length = some none := by
  have hwf : WFst [[7]] [0, 3, 7, 0, 0] := ⟨⟨[0, 0], rfl, by simp, by simp [zeros]⟩, by decide⟩
  exact ⟨(C7_next_address_amended hwf).1 0 (by decide), (C7_next_address_amended hwf).2.1⟩

/-- C8: opening a storage file whose bytes end in a zero marker leaves
it byte-for-byte unchanged, and opening any pre-existing file can only
add trailing zero bytes, never altering or removing existing ones. -/
theorem C8_init_preserves (b : List Nat) :
    (b.getLast? = some 0 → FileStorage.init b = b) ∧
      ∃ n, FileStorage.init b = b ++ List.replicate n 0 := by
  constructor
  · intro hlast
    have hbne : b ≠ [] := by rintro rfl; simp at hlast
    have hlen : ¬(b.length = 0) := by simpa [List.length_eq_zero] using hbne
    have hrb : readBytes b (b.length - 1) 1 = [0] := by
      unfold readBytes
      have hl : b.length - 1 < b.length := by omega
      rw [List.drop_eq_getElem_cons hl]
      have he : b.length - 1 + 1 = b.length := by omega
      rw [he, List.drop_length]
      have h0 : b[b.length - 1] = 0 := by
        rw [List.getLast?_eq_getElem? b, List.getElem?_eq_getElem hl] at hlast
        simpa using hlast
      rw [h0]
      rfl
    unfold FileStorage.init
    rw [if_neg hlen, if_pos hrb]
  · by_cases hb0 : b.length = 0
    · refine ⟨256, ?_⟩
      unfold FileStorage.init
      rw [if_pos hb0]
      have hbe : b = [] := List.length_eq_zero.mp hb0
      subst hbe
      unfold writeAt
      simp
    · by_cases hlast : readBytes b (b.length - 1) 1 = [0]
      · refine ⟨0, ?_⟩
        unfold FileStorage.init
        rw [if_neg hb0, if_pos hlast]
        simp
      · refine ⟨256, ?_⟩
        unfold FileStorage.init
        rw [if_neg hb0, if_neg hlast]
        exact writeAt_end b _

/-- Witness for C8: the minimal well-formed file is untouched. -/
theorem C8_witness :
    ([0, 0] : List Nat).getLast? = some 0 ∧ FileStorage.init [0, 0] = [0, 0] :=
  ⟨rfl, (C8_init_preserves [0, 0]).1 rfl⟩

/-- C10: record size limit — because the length prefix is a 2-byte
big-endian unsigned integer counting its own width, `append b data`
raises before writing anything whenever `data.length > 2^16 - 1 - 2`,
and consequently `set` fails when the serialized value, or every
possible serialized key pair, exceeds that size. -/
theorem C10_record_size_limit {K V : Type} [DecidableEq K]
    (encKT : K × Option Nat → List Nat) (encV : V → List Nat)
    (b data : List Nat) (st : Logical) (key : K) (v : V) :
    (65533 < data.length → FileStorage.append b data = (none, b)) ∧
    (65533 < (encV v).length → (Logical.set encKT encV st key v).1 = .error .fault) ∧
    ((∀ a : Option Nat, 65533 < (encKT (key, a)).length) →
      (Logical.set encKT encV st key v).1 = .error .fault) := by
  refine ⟨fun h => append_too_big h, fun h => ?_, fun h => ?_⟩
  · unfold Logical.set Logical.insert
    simp only [append_too_big h]
  · unfold Logical.set Logical.insert
    rcases hav : FileStorage.append st.value_storage (encV v) with ⟨r1, vb'⟩
    rcases r1 with _ | a
    · simp only [hav]
    · simp only [hav, append_too_big (h (some a))]

/-- Witness for C10: a 65534-byte payload is rejected with the file
unchanged, and `set` of an oversized value fails. -/
theorem C10_witness :
    65533 < (List.replicate 65534 (0 : Nat)).length ∧
      FileStorage.append [0, 0] (List.replicate 65534 0) = (none, [0, 0]) ∧
      (Logical.set encKTN encBigN Logical.fresh 0 0).1 = .error .fault := by
  have hlen : 65533 < (List.replicate 65534 (0 : Nat)).length := by
    rw [List.length_replicate]
    omega
  have hbig : 65533 < (encBigN 0).length := by
    show 65533 < (List.replicate 65534 (0 : Nat)).length
    exact hlen
  have hc := C10_record_size_limit encKTN encBigN [0, 0] (List.replicate 65534 0)
    Logical.fresh 0 0
  exact ⟨hlen, hc.1 hlen, hc.2.1 hbig⟩

end ToyDB
